import Mathlib

/-!
Verification of the root-selection and include-graph resolution core of the
arXiv TeX concatenater (`main.py`).

The embedding models:
  * `parse_includes` — line-by-line extraction of `\input` / `\include`
    references, with comment truncation at the first `%`;
  * `find_main_texfile` — the four-tier root selection policy;
  * the inline reference resolver of `resolve_includes` (candidate paths,
    first existing regular file wins);
  * `resolve_includes` — the depth-first, visited-set-guarded traversal;
  * the concatenation emitter of `main` (begin/end marker blocks).

The filesystem is modelled as an association list of absolute file paths and
their text contents (`FS`).  Paths are assumed to be canonical absolute
paths, on which `os.path.abspath` is the identity.  Recursion in the walker
is made total with an explicit fuel parameter; a dedicated error value
distinguishes fuel exhaustion from a failed file read, and the development
proves that fuel at least the number of filesystem entries plus one can
never be exhausted.
-/

/-- Python `\s` whitespace class restricted to ASCII, as used by `str.strip`
and the `\s` regex class in `parse_includes`. -/
def isPySpace (c : Char) : Bool :=
  c = ' ' || c = '\t' || c = '\n' || c = '\r' || c = '\x0b' || c = '\x0c'

/-- ASCII lowercasing of a character list, modelling Python `str.lower` on
the ASCII fragment relevant to filenames and extensions. -/
def lowerChars (l : List Char) : List Char :=
  l.map Char.toLower

/-- Python `str.strip()` : drop leading and trailing whitespace. -/
def pyStrip (l : List Char) : List Char :=
  ((l.dropWhile isPySpace).reverse.dropWhile isPySpace).reverse

/-- `stripped_line[:stripped_line.index('%')]` when a `'%'` occurs, and the
line unchanged otherwise: everything from the first `'%'` on is cut. -/
def truncComment (l : List Char) : List Char :=
  l.takeWhile (fun c => c ≠ '%')

/-- Python substring containment (`needle in hay`). -/
def hasSubstr (needle : List Char) : List Char → Bool
  | [] => needle.isEmpty
  | c :: rest => needle.isPrefixOf (c :: rest) || hasSubstr needle rest

/-- Accumulator-passing core of Python `str.splitlines`, recognising the
line terminators `\r\n`, `\r` and `\n`; a trailing terminator does not
produce a final empty line. -/
def splitLinesAux : List Char → List Char → List (List Char)
  | [], cur => if cur.isEmpty then [] else [cur]
  | '\r' :: '\n' :: rest, cur => cur :: splitLinesAux rest []
  | '\r' :: rest, cur => cur :: splitLinesAux rest []
  | '\n' :: rest, cur => cur :: splitLinesAux rest []
  | c :: rest, cur => splitLinesAux rest (cur ++ [c])

/-- Python `tex_content.splitlines()`. -/
def splitlines (s : String) : List (List Char) :=
  splitLinesAux s.data []

/-- The `\x7b([^\x7d]*)\x7d` part of the bracketed pattern, matched against
the text right after the keyword and opening brace: the capture is every
character up to the first closing brace, which is mandatory. -/
def braceCapture (r : List Char) : Option (List Char × List Char) :=
  let cap := r.takeWhile (fun c => c ≠ '\x7d')
  match r.drop cap.length with
  | '\x7d' :: rest => some (cap, rest)
  | _ => none

/-- One attempted match of the bracketed pattern
`\\(?:include|input)\x7b([^\x7d]*)\x7d` at a position just after a
backslash: the keyword, an opening brace, then the brace capture.  Returns
the capture and the remainder of the line after the match. -/
def matchBraceArg (l : List Char) : Option (List Char × List Char) :=
  if ['i','n','c','l','u','d','e','\x7b'].isPrefixOf l then braceCapture (l.drop 8)
  else if ['i','n','p','u','t','\x7b'].isPrefixOf l then braceCapture (l.drop 6)
  else none

/-- The `\s+([^\s]+)` part of the space-separated pattern, matched against
the text right after the keyword: at least one whitespace character, then a
maximal nonempty run of non-whitespace characters as the capture. -/
def spaceCapture (r : List Char) : Option (List Char × List Char) :=
  let ws := r.takeWhile isPySpace
  if ws.isEmpty then none
  else
    let r2 := r.drop ws.length
    let tok := r2.takeWhile (fun c => !(isPySpace c))
    if tok.isEmpty then none else some (tok, r2.drop tok.length)

/-- One attempted match of the space-separated pattern
`\\(?:include|input)\s+([^\s]+)` at a position just after a backslash. -/
def matchSpaceArg (l : List Char) : Option (List Char × List Char) :=
  if ['i','n','c','l','u','d','e'].isPrefixOf l then spaceCapture (l.drop 7)
  else if ['i','n','p','u','t'].isPrefixOf l then spaceCapture (l.drop 5)
  else none

/-- `re.findall` scan for the bracketed pattern: left-to-right,
non-overlapping; on a failed attempt the scan advances one character, on a
successful match it resumes after the match. -/
def findallBracketsAux : Nat → List Char → List (List Char)
  | 0, _ => []
  | _ + 1, [] => []
  | fuel + 1, a :: rest =>
    if a = '\\' then
      match matchBraceArg rest with
      | some (cap, rest2) => cap :: findallBracketsAux fuel rest2
      | none => findallBracketsAux fuel rest
    else findallBracketsAux fuel rest

/-- All captures of the bracketed pattern in a line. -/
def findallBrackets (l : List Char) : List (List Char) :=
  findallBracketsAux l.length l

/-- `re.findall` scan for the space-separated pattern. -/
def findallSpaceAux : Nat → List Char → List (List Char)
  | 0, _ => []
  | _ + 1, [] => []
  | fuel + 1, a :: rest =>
    if a = '\\' then
      match matchSpaceArg rest with
      | some (cap, rest2) => cap :: findallSpaceAux fuel rest2
      | none => findallSpaceAux fuel rest
    else findallSpaceAux fuel rest

/-- All captures of the space-separated pattern in a line. -/
def findallSpace (l : List Char) : List (List Char) :=
  findallSpaceAux l.length l

/-- Per-line processing of `parse_includes`: strip the line, truncate at the
first `'%'`, then append all bracketed captures followed by all
space-separated captures. -/
def lineIncludes (line : List Char) : List String :=
  let stripped_line := truncComment (pyStrip line)
  (findallBrackets stripped_line).map (fun l => String.mk l)
    ++ (findallSpace stripped_line).map (fun l => String.mk l)

/-- `parse_includes(tex_content)`: the `include_files` list accumulated over
the lines of the input. -/
def parse_includes (tex_content : String) : List String :=
  (splitlines tex_content).foldl (fun acc line => acc ++ lineIncludes line) []

/-- `os.path.basename`: the part of a path after its last `'/'`. -/
def basenameL (l : List Char) : List Char :=
  (l.reverse.takeWhile (fun c => c ≠ '/')).reverse

/-- `os.path.basename` on strings. -/
def basename (p : String) : String :=
  String.mk (basenameL p.data)

/-- `os.path.dirname` (POSIX): everything before the last `'/'`; the slash
itself is kept only when the head consists solely of slashes. -/
def dirname (p : String) : String :=
  let l := p.data
  let base := basenameL l
  let head := l.take (l.length - base.length)
  if head.isEmpty then ""
  else if head.all (fun c => c = '/') then String.mk head
  else String.mk ((head.reverse.dropWhile (fun c => c = '/')).reverse)

/-- `os.path.join` (POSIX) for two components: an absolute second component
replaces the first, otherwise a separator is inserted unless the first
component is empty or already ends in one. -/
def joinPath (a b : String) : String :=
  if b.data.head? = some '/' then b
  else if a.data = [] ∨ a.data.getLast? = some '/' then a ++ b
  else a ++ "/" ++ b

/-- `os.path.abspath`.  The embedding works with canonical absolute paths
throughout (the root handed to the walker and every path built by
`joinPath` from it), on which `abspath` is the identity. -/
def pyAbspath (p : String) : String := p

/-- The directory tree handed to the core: an enumeration (in filesystem
traversal order) of the regular files, each with its text content read with
lenient decoding. -/
abbrev FS : Type := List (String × String)

/-- `os.path.isfile`: the path names a regular file of the tree. -/
def isFile (fs : FS) (p : String) : Bool :=
  fs.any (fun e => e.1 = p)

/-- Reading a file's full text: the content stored at the first entry with
the given path, if any. -/
def fsRead (fs : FS) (p : String) : Option String :=
  (fs.find? (fun e => e.1 = p)).map Prod.snd

/-- The paths of the tree, in enumeration order. -/
def fsPaths (fs : FS) : List String :=
  fs.map Prod.fst

/-- The filename filter of `find_main_texfile`:
`fn.lower().endswith(".tex")`. -/
def isTexName (path : String) : Bool :=
  ['.', 't', 'e', 'x'].isSuffixOf (lowerChars (basenameL path.data))

/-- The `tex_files` list of `find_main_texfile`: all enumerated files whose
name has the canonical extension. -/
def texCandidates (fs : FS) : FS :=
  fs.filter (fun e => isTexName e.1)

/-- Tier-1 test of `find_main_texfile`:
`os.path.basename(f).lower() == "main.tex"`. -/
def isMainName (e : String × String) : Bool :=
  lowerChars (basenameL e.1.data) = ['m','a','i','n','.','t','e','x']

/-- Tier-2 test of `find_main_texfile`: the content contains the literal
document-start marker. -/
def hasBeginDocument (e : String × String) : Bool :=
  hasSubstr "\\begin\x7bdocument\x7d".data e.2.data

/-- `find_main_texfile(root_dir)`: candidate enumeration followed by the
four-tier priority policy (conventional name, document-start marker, first
candidate, not found). -/
def find_main_texfile (fs : FS) : Option String :=
  let tex_files := texCandidates fs
  match tex_files.find? isMainName with
  | some f => some f.1
  | none =>
    match tex_files.find? hasBeginDocument with
    | some f => some f.1
    | none =>
      match tex_files with
      | f :: _ => some f.1
      | [] => none

/-- The inline reference resolver of `resolve_includes` (its `candidates`
list and first-existing-file scan): a reference already carrying the
canonical extension is tried verbatim only; otherwise the reference with
the extension appended is tried first and the verbatim reference second. -/
def resolve_reference (fs : FS) (base_dir inc : String) : Option String :=
  let candidates :=
    if ['.', 't', 'e', 'x'].isSuffixOf (lowerChars inc.data) then
      [joinPath base_dir inc]
    else
      [joinPath base_dir (inc ++ ".tex"), joinPath base_dir inc]
  candidates.find? (fun c => isFile fs c)

/-- Failure modes of the fuelled walker: the fuel bound was hit, or a file
read failed (the file is not part of the tree). -/
inductive WalkError where
  | outOfFuel
  | readFailure
deriving DecidableEq

/-- The `for inc in includes` loop body of `resolve_includes`: resolve each
reference in order; an unresolved reference is skipped silently, a resolved
one is expanded recursively with the shared visited set, and its results
are spliced after the ones collected so far. -/
def resolveList (fs : FS)
    (rec : String → List String → Except WalkError (List String × List String))
    (base_dir : String) :
    List String → List String × List String →
      Except WalkError (List String × List String)
  | [], acc => .ok acc
  | inc :: rest, acc =>
    match resolve_reference fs base_dir inc with
    | none => resolveList fs rec base_dir rest acc
    | some found_path =>
      match rec found_path acc.2 with
      | .error e => .error e
      | .ok (sub, visited2) =>
        resolveList fs rec base_dir rest (acc.1 ++ sub, visited2)

/-- `resolve_includes(root_tex_path, visited)`, fuelled: an already-visited
path contributes nothing; otherwise the path is added to the visited set
and appended to the results first, its content is read and parsed, and each
reference is resolved and expanded in order.  The visited set is threaded
through and returned alongside the results. -/
def resolveIncludes (fs : FS) : Nat → String → List String →
    Except WalkError (List String × List String)
  | 0, _, _ => .error .outOfFuel
  | fuel + 1, root_tex_path, visited =>
    let abspath := pyAbspath root_tex_path
    if abspath ∈ visited then .ok ([], visited)
    else
      match fsRead fs abspath with
      | none => .error .readFailure
      | some content =>
        resolveList fs (resolveIncludes fs fuel) (dirname abspath)
          (parse_includes content) ([abspath], visited ++ [abspath])

/-- Top-level `resolve_includes(root_tex_path)`: a fresh empty visited set,
returning only the ordered result list. -/
def resolve_includes (fs : FS) (fuel : Nat) (root_tex_path : String) :
    Except WalkError (List String) :=
  (resolveIncludes fs fuel root_tex_path []).map Prod.fst

/-- One emitted block of step 5 of `main`: the begin-marker line, the file
content, then the end-marker line followed by a blank line. -/
def emitBlock (fs : FS) (p : String) : String :=
  "% >>>>>>>> BEGIN " ++ p ++ "\n" ++ (fsRead fs p).getD ""
    ++ "\n% <<<<<<<< END " ++ p ++ "\n\n"

/-- The concatenation loop of step 5 of `main`, writing the three parts of
each block in file-list order into the output accumulator; reading a path
that is not a file of the tree fails. -/
def emitLoop (fs : FS) : List String → String → Option String
  | [], acc => some acc
  | p :: rest, acc =>
    match fsRead fs p with
    | none => none
    | some content =>
      emitLoop fs rest
        (acc ++ ("% >>>>>>>> BEGIN " ++ p ++ "\n") ++ content
          ++ ("\n% <<<<<<<< END " ++ p ++ "\n\n"))

/-- The emitted artifact for an ordered file list. -/
def emitConcatenation (fs : FS) (paths : List String) : Option String :=
  emitLoop fs paths ""

/-- The cyclic three-file tree of the end-to-end example: `main.tex` inputs
`a`, `a.tex` inputs `b`, and `b.tex` inputs `a` again. -/
def cycleFS : FS :=
  [("/d/main.tex", "\\input\x7ba\x7d"),
   ("/d/a.tex", "\\input\x7bb\x7d"),
   ("/d/b.tex", "\\input\x7ba\x7d")]

/-- A single file that inputs itself. -/
def selfFS : FS :=
  [("/s/self.tex", "\\input\x7bself.tex\x7d")]

/-- A tree with no conventionally named entry file whose second candidate
contains the document-start marker. -/
def markerFS : FS :=
  [("/w/a.tex", "hello"),
   ("/w/b.tex", "x \\begin\x7bdocument\x7d y"),
   ("/w/c.tex", "z")]

/-- A tree with an upper-cased conventionally named entry file listed after
another candidate. -/
def mainFS : FS :=
  [("/w/other.tex", "\\begin\x7bdocument\x7d"),
   ("/w/sub/MAIN.TEX", "y")]

/-- A tree holding a single sectional file, for resolver examples. -/
def secFS : FS :=
  [("/r/sec.tex", "")]

/-- One step of the include graph: `q` is the path the resolver produces
for some reference parsed out of `p`'s content. -/
def Succ (fs : FS) (p q : String) : Prop :=
  ∃ content inc, fsRead fs p = some content ∧ inc ∈ parse_includes content ∧
    resolve_reference fs (dirname p) inc = some q

/-- A path of the include graph from `root` to a node, listing every node
crossed, the endpoints included. -/
inductive PathTo (fs : FS) (root : String) : String → List String → Prop where
  | refl : PathTo fs root root [root]
  | step : ∀ p q l, PathTo fs root p l → Succ fs p q → PathTo fs root q (l ++ [q])

/-- A node of the include graph reachable from `root`. -/
def Reachable (fs : FS) (root : String) (q : String) : Prop :=
  ∃ l, PathTo fs root q l

/-- `q` is reachable only through `p`: every include-graph path from the
root to `q` crosses `p`. -/
def OnlyThrough (fs : FS) (root p q : String) : Prop :=
  ∀ l, PathTo fs root q l → p ∈ l

/-- Every element of the list other than a leading `root` has an
include-graph predecessor strictly earlier in the list: the shape of a
pre-order DFS output. -/
def GoodList (fs : FS) (root : String) (res : List String) : Prop :=
  ∀ l1 q l2, res = l1 ++ q :: l2 → (l1 = [] ∧ q = root) ∨ ∃ p ∈ l1, Succ fs p q

/-- The number of filesystem entries whose path is not yet visited: the
quantity that shrinks at every genuine visit of the walker. -/
def newCount (fs : FS) (v : List String) : Nat :=
  ((fsPaths fs).filter (fun p => decide (p ∉ v))).length

/-- Everything the include loop appends is appended to the visited set as
well: the loop's final results and visited set extend its initial ones by
one common suffix. -/
theorem resolveList_ok_append (fs : FS)
    (rec : String → List String → Except WalkError (List String × List String))
    (hrec : ∀ r v res v', rec r v = .ok (res, v') → v' = v ++ res)
    (base : String) :
    ∀ (incs : List String) (a1 a2 res v'),
      resolveList fs rec base incs (a1, a2) = .ok (res, v') →
      ∃ ext, res = a1 ++ ext ∧ v' = a2 ++ ext := by
  intro incs
  induction incs with
  | nil =>
    intro a1 a2 res v' h
    simp only [resolveList] at h
    cases h
    exact ⟨[], by simp, by simp⟩
  | cons inc rest ih =>
    intro a1 a2 res v' h
    simp only [resolveList] at h
    split at h
    · exact ih a1 a2 res v' h
    · rename_i found hfound
      split at h
      · cases h
      · rename_i sub visited2 hrec2
        have hv2 : visited2 = a2 ++ sub := hrec _ _ _ _ hrec2
        obtain ⟨ext, hres, hv⟩ := ih (a1 ++ sub) visited2 res v' h
        subst hv2
        exact ⟨sub ++ ext, by simp [hres], by simp [hv]⟩

/-- A successful walk extends the visited set exactly by its result list. -/
theorem resolveIncludes_visited_eq (fs : FS) :
    ∀ fuel r v res v',
      resolveIncludes fs fuel r v = .ok (res, v') → v' = v ++ res := by
  intro fuel
  induction fuel with
  | zero => intro r v res v' h; cases h
  | succ fuel ih =>
    intro r v res v' h
    simp only [resolveIncludes, pyAbspath] at h
    split at h
    · cases h; simp
    · split at h
      · cases h
      · obtain ⟨ext, hres, hv⟩ := resolveList_ok_append fs _ ih _ _ _ _ _ _ h
        subst hres hv
        simp

/-- A readable path is a path of the tree. -/
theorem fsRead_some_mem (fs : FS) (p c : String) (h : fsRead fs p = some c) :
    p ∈ fsPaths fs := by
  unfold fsRead at h
  obtain ⟨e, he, -⟩ := Option.map_eq_some'.mp h
  have hmem := List.mem_of_find?_eq_some he
  have hp := List.find?_some he
  simp only [decide_eq_true_eq] at hp
  exact hp ▸ List.mem_map_of_mem Prod.fst hmem

/-- An existing file is readable. -/
theorem isFile_fsRead (fs : FS) (p : String) (h : isFile fs p = true) :
    ∃ c, fsRead fs p = some c := by
  unfold isFile at h
  unfold fsRead
  obtain ⟨e, hmem, hp⟩ := List.any_eq_true.mp h
  have : (fs.find? (fun e => e.1 = p)).isSome := by
    rw [List.find?_isSome]
    exact ⟨e, hmem, hp⟩
  obtain ⟨e', he'⟩ := Option.isSome_iff_exists.mp this
  exact ⟨e'.2, by rw [he']; rfl⟩

/-- The resolver only returns existing files. -/
theorem resolve_reference_isFile (fs : FS) (base inc q : String)
    (h : resolve_reference fs base inc = some q) : isFile fs q = true :=
  List.find?_some h

/-- After a successful walk the walked root is in the visited set. -/
theorem resolveIncludes_mem_visited (fs : FS) (fuel : Nat) (r : String)
    (v res v' : List String)
    (h : resolveIncludes fs fuel r v = .ok (res, v')) : r ∈ v' := by
  cases fuel with
  | zero => cases h
  | succ fuel =>
    simp only [resolveIncludes, pyAbspath] at h
    split at h
    · rename_i hmem
      cases h
      exact hmem
    · split at h
      · cases h
      · obtain ⟨ext, hres, hv⟩ :=
          resolveList_ok_append fs _ (resolveIncludes_visited_eq fs fuel) _ _ _ _ _ _ h
        subst hv
        simp

/-- What the include loop adds beyond its accumulator are paths of the
tree. -/
theorem resolveList_sub_paths (fs : FS)
    (rec : String → List String → Except WalkError (List String × List String))
    (hrec : ∀ r v res v', rec r v = .ok (res, v') → ∀ x ∈ res, x ∈ fsPaths fs)
    (base : String) :
    ∀ (incs : List String) (a1 a2 res v'),
      resolveList fs rec base incs (a1, a2) = .ok (res, v') →
      ∀ x ∈ res, x ∈ a1 ∨ x ∈ fsPaths fs := by
  intro incs
  induction incs with
  | nil =>
    intro a1 a2 res v' h x hx
    simp only [resolveList] at h
    cases h
    exact Or.inl hx
  | cons inc rest ih =>
    intro a1 a2 res v' h x hx
    simp only [resolveList] at h
    split at h
    · exact ih a1 a2 res v' h x hx
    · rename_i found hfound
      split at h
      · cases h
      · rename_i sub visited2 hrec2
        rcases ih _ _ _ _ h x hx with hx' | hx'
        · rcases List.mem_append.mp hx' with hx'' | hx''
          · exact Or.inl hx''
          · exact Or.inr (hrec _ _ _ _ hrec2 x hx'')
        · exact Or.inr hx'

/-- Every path a successful walk lists is a path of the tree. -/
theorem resolveIncludes_sub_paths (fs : FS) :
    ∀ fuel r v res v',
      resolveIncludes fs fuel r v = .ok (res, v') → ∀ x ∈ res, x ∈ fsPaths fs := by
  intro fuel
  induction fuel with
  | zero => intro r v res v' h; cases h
  | succ fuel ih =>
    intro r v res v' h x hx
    simp only [resolveIncludes, pyAbspath] at h
    split at h
    · cases h; cases hx
    · split at h
      · cases h
      · rename_i content hread
        rcases resolveList_sub_paths fs _ ih _ _ _ _ _ _ h x hx with hx' | hx'
        · simp only [List.mem_singleton] at hx'
          exact hx' ▸ fsRead_some_mem fs r content hread
        · exact hx'

/-- Everything the include loop adds beyond its accumulator is fresh: not
in the entry visited set, and without duplicates. -/
theorem resolveList_fresh (fs : FS)
    (rec : String → List String → Except WalkError (List String × List String))
    (hrec_app : ∀ r v res v', rec r v = .ok (res, v') → v' = v ++ res)
    (hrec_fresh : ∀ r v res v', rec r v = .ok (res, v') →
      res.Nodup ∧ ∀ x ∈ res, x ∉ v)
    (base : String) :
    ∀ (incs : List String) (a1 a2 res v'),
      resolveList fs rec base incs (a1, a2) = .ok (res, v') →
      ∃ ext, res = a1 ++ ext ∧ v' = a2 ++ ext ∧ ext.Nodup ∧ ∀ x ∈ ext, x ∉ a2 := by
  intro incs
  induction incs with
  | nil =>
    intro a1 a2 res v' h
    simp only [resolveList] at h
    cases h
    exact ⟨[], by simp, by simp, List.nodup_nil, by simp⟩
  | cons inc rest ih =>
    intro a1 a2 res v' h
    simp only [resolveList] at h
    split at h
    · exact ih a1 a2 res v' h
    · rename_i found hfound
      split at h
      · cases h
      · rename_i sub visited2 hrec2
        have hv2 : visited2 = a2 ++ sub := hrec_app _ _ _ _ hrec2
        obtain ⟨hsub_nodup, hsub_fresh⟩ := hrec_fresh _ _ _ _ hrec2
        subst hv2
        obtain ⟨ext, hres, hv, hnodup, hfresh⟩ := ih _ _ _ _ h
        refine ⟨sub ++ ext, by simp [hres], by simp [hv], ?_, ?_⟩
        · refine List.Nodup.append hsub_nodup hnodup ?_
          intro x hxs hxe
          exact hfresh x hxe (List.mem_append.mpr (Or.inr hxs))
        · intro x hx
          rcases List.mem_append.mp hx with hx' | hx'
          · exact hsub_fresh x hx'
          · intro hxa
            exact hfresh x hx' (List.mem_append.mpr (Or.inl hxa))

/-- A successful walk lists each path at most once, and never a path that
was already visited when it started. -/
theorem resolveIncludes_fresh (fs : FS) :
    ∀ fuel r v res v',
      resolveIncludes fs fuel r v = .ok (res, v') →
      res.Nodup ∧ ∀ x ∈ res, x ∉ v := by
  intro fuel
  induction fuel with
  | zero => intro r v res v' h; cases h
  | succ fuel ih =>
    intro r v res v' h
    simp only [resolveIncludes, pyAbspath] at h
    split at h
    · cases h
      exact ⟨List.nodup_nil, by simp⟩
    · rename_i hnmem
      split at h
      · cases h
      · obtain ⟨ext, hres, hv, hnodup, hfresh⟩ :=
          resolveList_fresh fs _ (resolveIncludes_visited_eq fs fuel) ih _ _ _ _ _ _ h
        subst hres
        constructor
        · simp only [List.singleton_append, List.nodup_cons]
          refine ⟨fun hre => ?_, hnodup⟩
          exact hfresh r hre (List.mem_append.mpr (Or.inr (List.mem_singleton.mpr rfl)))
        · intro x hx
          rcases List.mem_append.mp hx with hx' | hx'
          · simp only [List.mem_singleton] at hx'
            exact hx' ▸ hnmem
          · intro hxv
            exact hfresh x hx' (List.mem_append.mpr (Or.inl hxv))

/-- Every reference the include loop resolves ends up visited, and every
node the loop adds has all its include-graph successors visited by the end
of the loop. -/
theorem resolveList_closure (fs : FS)
    (rec : String → List String → Except WalkError (List String × List String))
    (hrec_app : ∀ r v res v', rec r v = .ok (res, v') → v' = v ++ res)
    (hrec_mem : ∀ r v res v', rec r v = .ok (res, v') → r ∈ v')
    (hrec_cl : ∀ r v res v', rec r v = .ok (res, v') →
      ∀ p ∈ res, ∀ q, Succ fs p q → q ∈ v')
    (base : String) :
    ∀ (incs : List String) (a1 a2 res v'),
      resolveList fs rec base incs (a1, a2) = .ok (res, v') →
      (∀ inc ∈ incs, ∀ q, resolve_reference fs base inc = some q → q ∈ v')
      ∧ (∀ p ∈ res, p ∈ a1 ∨ ∀ q, Succ fs p q → q ∈ v') := by
  intro incs
  induction incs with
  | nil =>
    intro a1 a2 res v' h
    simp only [resolveList] at h
    cases h
    exact ⟨by simp, fun p hp => Or.inl hp⟩
  | cons inc rest ih =>
    intro a1 a2 res v' h
    simp only [resolveList] at h
    split at h
    · rename_i hnone
      obtain ⟨ih1, ih2⟩ := ih a1 a2 res v' h
      refine ⟨?_, ih2⟩
      intro inc' hinc' q hq
      rcases List.mem_cons.mp hinc' with hinc' | hinc'
      · subst hinc'; rw [hnone] at hq; cases hq
      · exact ih1 inc' hinc' q hq
    · rename_i found hfound
      split at h
      · cases h
      · rename_i sub visited2 hrec2
        obtain ⟨ext', -, hv'⟩ :=
          resolveList_ok_append fs rec hrec_app base rest _ _ _ _ h
        obtain ⟨ih1, ih2⟩ := ih _ _ _ _ h
        have hv2sub : ∀ x ∈ visited2, x ∈ v' := by
          intro x hx; rw [hv']; exact List.mem_append.mpr (Or.inl hx)
        constructor
        · intro inc' hinc' q hq
          rcases List.mem_cons.mp hinc' with hinc' | hinc'
          · subst hinc'
            rw [hfound] at hq
            cases hq
            exact hv2sub found (hrec_mem _ _ _ _ hrec2)
          · exact ih1 inc' hinc' q hq
        · intro p hp
          rcases ih2 p hp with hp' | hp'
          · rcases List.mem_append.mp hp' with hp'' | hp''
            · exact Or.inl hp''
            · exact Or.inr fun q hq => hv2sub q (hrec_cl _ _ _ _ hrec2 p hp'' q hq)
          · exact Or.inr hp'

/-- Closure: after a successful walk, every include-graph successor of a
listed node is in the final visited set. -/
theorem resolveIncludes_closure (fs : FS) :
    ∀ fuel r v res v',
      resolveIncludes fs fuel r v = .ok (res, v') →
      ∀ p ∈ res, ∀ q, Succ fs p q → q ∈ v' := by
  intro fuel
  induction fuel with
  | zero => intro r v res v' h; cases h
  | succ fuel ih =>
    intro r v res v' h p hp q hq
    simp only [resolveIncludes, pyAbspath] at h
    split at h
    · cases h; cases hp
    · split at h
      · cases h
      · rename_i content hread
        obtain ⟨h1, h2⟩ := resolveList_closure fs _
          (resolveIncludes_visited_eq fs fuel)
          (resolveIncludes_mem_visited fs fuel · · · ·)
          ih _ _ _ _ _ _ h
        rcases h2 p hp with hp' | hp'
        · simp only [List.mem_singleton] at hp'
          subst hp'
          obtain ⟨content', inc, hread', hinc, hres⟩ := hq
          rw [hread] at hread'
          cases hread'
          exact h1 inc hinc q hres
        · exact hp' q hq

/-- DFS shape: every element of a successful walk's output other than the
leading root has an include-graph predecessor strictly earlier in the
output. -/
theorem resolveList_good (fs : FS)
    (rec : String → List String → Except WalkError (List String × List String))
    (hrec_good : ∀ r v res v', rec r v = .ok (res, v') →
      ∀ e1 q e2, res = e1 ++ q :: e2 → (e1 = [] ∧ q = r) ∨ ∃ p ∈ e1, Succ fs p q)
    (base r0 : String) :
    ∀ (incs : List String),
      (∀ inc ∈ incs, ∀ q, resolve_reference fs base inc = some q → Succ fs r0 q) →
      ∀ a1 a2 res v',
        resolveList fs rec base incs (a1, a2) = .ok (res, v') →
        ∃ ext, res = a1 ++ ext ∧
          ∀ e1 q e2, ext = e1 ++ q :: e2 → Succ fs r0 q ∨ ∃ p ∈ e1, Succ fs p q := by
  intro incs
  induction incs with
  | nil =>
    intro hbase a1 a2 res v' h
    simp only [resolveList] at h
    cases h
    refine ⟨[], by simp, ?_⟩
    intro e1 q e2 he
    exact absurd he.symm (by simp)
  | cons inc rest ih =>
    intro hbase a1 a2 res v' h
    simp only [resolveList] at h
    split at h
    · exact ih (fun i hi => hbase i (List.mem_cons_of_mem inc hi)) a1 a2 res v' h
    · rename_i found hfound
      split at h
      · cases h
      · rename_i sub visited2 hrec2
        have hsucc_found : Succ fs r0 found :=
          hbase inc (List.mem_cons_self inc rest) found hfound
        obtain ⟨ext', hres, hprop⟩ :=
          ih (fun i hi => hbase i (List.mem_cons_of_mem inc hi)) _ _ _ _ h
        refine ⟨sub ++ ext', by simp [hres], ?_⟩
        intro e1 q e2 he
        rcases List.append_eq_append_iff.mp he with ⟨a', he1, hext'⟩ | ⟨c', hsub, hqe2⟩
        · rcases hprop a' q e2 hext' with hq | ⟨p, hp, hq⟩
          · exact Or.inl hq
          · exact Or.inr ⟨p, by rw [he1]; exact List.mem_append.mpr (Or.inr hp), hq⟩
        · cases c' with
          | nil =>
            simp only [List.nil_append] at hqe2
            rcases hprop [] q e2 (by simpa using hqe2.symm) with hq | ⟨p, hp, hq⟩
            · exact Or.inl hq
            · exact absurd hp (List.not_mem_nil p)
          | cons q' c'' =>
            have hq2 : q' = q := by
              injection hqe2 with h1 h2
              exact h1.symm
            subst hq2
            rcases hrec_good _ _ _ _ hrec2 e1 q' c'' hsub with ⟨he1, hqf⟩ | ⟨p, hp, hq⟩
            · exact Or.inl (hqf ▸ hsucc_found)
            · exact Or.inr ⟨p, hp, hq⟩

/-- A successful walk's output is `GoodList`-shaped for its own root. -/
theorem resolveIncludes_good (fs : FS) :
    ∀ fuel r v res v',
      resolveIncludes fs fuel r v = .ok (res, v') → GoodList fs r res := by
  intro fuel
  induction fuel with
  | zero => intro r v res v' h; cases h
  | succ fuel ih =>
    intro r v res v' h
    simp only [resolveIncludes, pyAbspath] at h
    split at h
    · cases h
      intro l1 q l2 he
      exact absurd he.symm (by simp)
    · split at h
      · cases h
      · rename_i content hread
        have hbase : ∀ inc ∈ parse_includes content, ∀ q,
            resolve_reference fs (dirname r) inc = some q → Succ fs r q := by
          intro inc hinc q hq
          exact ⟨content, inc, hread, hinc, hq⟩
        obtain ⟨ext, hres, hprop⟩ :=
          resolveList_good fs _ (fun r' w res' w' hok => ih r' w res' w' hok) _ r
            _ hbase _ _ _ _ h
        intro l1 q l2 he
        rw [hres] at he
        cases l1 with
        | nil =>
          simp only [List.nil_append] at he
          have hqr : q = r := by
            have := congrArg List.head? he
            simpa using this.symm
          exact Or.inl ⟨rfl, hqr⟩
        | cons x l1' =>
          have hx : x = r := by
            have := congrArg List.head? he
            simpa using this.symm
          have hext : ext = l1' ++ q :: l2 := by
            have := congrArg List.tail he
            simpa using this
          rcases hprop l1' q l2 hext with hq | ⟨p, hp, hq⟩
          · exact Or.inr ⟨x, List.mem_cons_self x l1', hx ▸ hq⟩
          · exact Or.inr ⟨p, List.mem_cons_of_mem x hp, hq⟩

/-- From a `GoodList` one can trace an include-graph path from the root to
any listed node, crossing only nodes at or before that node's position. -/
theorem goodList_path (fs : FS) (root : String) (res : List String)
    (hgood : GoodList fs root res) :
    ∀ n l1 q l2, res = l1 ++ q :: l2 → l1.length = n →
      ∃ pl, PathTo fs root q pl ∧ ∀ x ∈ pl, x ∈ l1 ++ [q] := by
  intro n
  induction n using Nat.strong_induction_on with
  | _ n ihn =>
    intro l1 q l2 hres hlen
    rcases hgood l1 q l2 hres with ⟨h1, h2⟩ | ⟨p, hp, hsucc⟩
    · subst h2
      exact ⟨[q], PathTo.refl, by intro x hx; simp_all⟩
    · obtain ⟨m1, m2, hm⟩ := List.append_of_mem hp
      have hres2 : res = m1 ++ p :: (m2 ++ q :: l2) := by
        rw [hres, hm]; simp
      have hlt : m1.length < n := by
        subst hlen; rw [hm]; simp [Nat.lt_succ_iff, Nat.le_add_right]
      obtain ⟨pl, hpl, hsub⟩ := ihn m1.length hlt m1 p (m2 ++ q :: l2) hres2 rfl
      refine ⟨pl ++ [q], PathTo.step p q pl hpl hsucc, ?_⟩
      intro x hx
      rcases List.mem_append.mp hx with hx | hx
      · have hx2 := hsub x hx
        rw [hm]
        rcases List.mem_append.mp hx2 with hx3 | hx3
        · exact List.mem_append.mpr (Or.inl (List.mem_append.mpr (Or.inl hx3)))
        · simp only [List.mem_singleton] at hx3
          subst hx3
          exact List.mem_append.mpr (Or.inl (by simp))
      · exact List.mem_append.mpr (Or.inr hx)

/-- Every node of a `GoodList` is reachable from the root. -/
theorem goodList_reachable (fs : FS) (root : String) (res : List String)
    (hgood : GoodList fs root res) : ∀ q ∈ res, Reachable fs root q := by
  intro q hq
  obtain ⟨l1, l2, hres⟩ := List.append_of_mem hq
  obtain ⟨pl, hpl, -⟩ := goodList_path fs root res hgood l1.length l1 q l2 hres rfl
  exact ⟨pl, hpl⟩

/-- Pre-order of first visitation: in a duplicate-free `GoodList`, a node
reachable only through `p` never appears before `p`. -/
theorem goodList_indexOf (fs : FS) (root : String) (res : List String)
    (hgood : GoodList fs root res) (hnodup : res.Nodup) (p q : String)
    (hp : p ∈ res) (hq : q ∈ res) (honly : OnlyThrough fs root p q) :
    res.indexOf p ≤ res.indexOf q := by
  obtain ⟨l1, l2, hres⟩ := List.append_of_mem hq
  obtain ⟨pl, hpl, hsub⟩ := goodList_path fs root res hgood l1.length l1 q l2 hres rfl
  have hpin : p ∈ l1 ++ [q] := hsub p (honly pl hpl)
  subst hres
  have hqnotin : q ∉ l1 := by
    intro hq1
    obtain ⟨hnd, hdisj⟩ := List.nodup_append.mp hnodup
    exact hdisj.2 hq1 (List.mem_cons_self q l2)
  have hidxq : List.indexOf q (l1 ++ q :: l2) = l1.length := by
    rw [List.indexOf_append_of_not_mem hqnotin, List.indexOf_cons_self]
    simp
  rcases List.mem_append.mp hpin with hp1 | hp1
  · have : List.indexOf p (l1 ++ q :: l2) = List.indexOf p l1 :=
      List.indexOf_append_of_mem hp1
    rw [this, hidxq]
    exact Nat.le_of_lt (List.indexOf_lt_length.mpr hp1)
  · simp only [List.mem_singleton] at hp1
    subst hp1
    rw [hidxq]

/-- A pointwise-stronger filter keeps at most as many elements. -/
theorem filter_length_le_of_imp {α : Type} (p q : α → Bool)
    (h : ∀ a, q a = true → p a = true) :
    ∀ l : List α, (l.filter q).length ≤ (l.filter p).length := by
  intro l
  induction l with
  | nil => simp
  | cons a l ih =>
    simp only [List.filter_cons]
    by_cases hq : q a = true
    · simp only [hq, h a hq, if_true, List.length_cons]
      exact Nat.succ_le_succ ih
    · simp only [Bool.not_eq_true] at hq
      simp only [hq, Bool.false_eq_true, if_false]
      by_cases hp : p a = true
      · simp only [hp, if_true, List.length_cons]
        exact Nat.le_succ_of_le ih
      · simp only [Bool.not_eq_true] at hp
        simp only [hp, Bool.false_eq_true, if_false]
        exact ih

/-- A pointwise-stronger filter that loses a witness keeps strictly fewer
elements. -/
theorem filter_length_lt_of_imp {α : Type} (p q : α → Bool)
    (h : ∀ a, q a = true → p a = true) (a : α) :
    ∀ l : List α, a ∈ l → p a = true → q a = false →
      (l.filter q).length < (l.filter p).length := by
  intro l
  induction l with
  | nil => intro h1; cases h1
  | cons b l ih =>
    intro hmem hpa hqa
    simp only [List.filter_cons]
    rcases List.mem_cons.mp hmem with hba | hmem'
    · subst hba
      simp only [hqa, Bool.false_eq_true, if_false, hpa, if_true, List.length_cons]
      exact Nat.lt_succ_of_le (filter_length_le_of_imp p q h l)
    · by_cases hq : q b = true
      · simp only [hq, h b hq, if_true, List.length_cons]
        exact Nat.succ_lt_succ (ih hmem' hpa hqa)
      · simp only [Bool.not_eq_true] at hq
        simp only [hq, Bool.false_eq_true, if_false]
        by_cases hp : p b = true
        · simp only [hp, if_true, List.length_cons]
          exact Nat.lt_succ_of_lt (ih hmem' hpa hqa)
        · simp only [Bool.not_eq_true] at hp
          simp only [hp, Bool.false_eq_true, if_false]
          exact ih hmem' hpa hqa

/-- Visiting more paths never increases the count of unvisited entries. -/
theorem newCount_mono (fs : FS) (v w : List String)
    (hsub : ∀ x ∈ v, x ∈ w) : newCount fs w ≤ newCount fs v := by
  unfold newCount
  apply filter_length_le_of_imp
  intro a ha
  simp only [decide_eq_true_eq] at *
  intro hav
  exact ha (hsub a hav)

/-- Visiting an unvisited path of the tree strictly decreases the count of
unvisited entries. -/
theorem newCount_lt (fs : FS) (v : List String) (r : String)
    (hr : r ∈ fsPaths fs) (hnv : r ∉ v) :
    newCount fs (v ++ [r]) < newCount fs v := by
  unfold newCount
  apply filter_length_lt_of_imp _ _ _ r _ hr
  · simp [hnv]
  · simp
  · intro a ha
    simp only [decide_eq_true_eq] at *
    intro hav
    exact ha (List.mem_append.mpr (Or.inl hav))

/-- The unvisited count is bounded by the number of tree entries. -/
theorem newCount_le (fs : FS) (v : List String) : newCount fs v ≤ fs.length := by
  unfold newCount
  calc ((fsPaths fs).filter (fun p => decide (p ∉ v))).length
      ≤ (fsPaths fs).length := List.length_filter_le _ _
    _ = fs.length := List.length_map fs Prod.fst

/-- If no recursive call can exhaust the fuel from a visited set extending
the loop's entry set, the loop cannot exhaust the fuel. -/
theorem resolveList_ne_outOfFuel (fs : FS)
    (rec : String → List String → Except WalkError (List String × List String))
    (base : String) (a0 : List String)
    (hrec_app : ∀ r v res v', rec r v = .ok (res, v') → v' = v ++ res)
    (hrec : ∀ r' w, (∀ x ∈ a0, x ∈ w) → rec r' w ≠ .error .outOfFuel) :
    ∀ incs a1 a2, (∀ x ∈ a0, x ∈ a2) →
      resolveList fs rec base incs (a1, a2) ≠ .error .outOfFuel := by
  intro incs
  induction incs with
  | nil =>
    intro a1 a2 hsub h
    simp only [resolveList] at h
    cases h
  | cons inc rest ih =>
    intro a1 a2 hsub h
    simp only [resolveList] at h
    split at h
    · exact ih _ _ hsub h
    · rename_i found hfound
      split at h
      · rename_i e herr
        cases h
        exact hrec found a2 hsub herr
      · rename_i sub visited2 hrec2
        have hv2 : visited2 = a2 ++ sub := hrec_app _ _ _ _ hrec2
        refine ih _ _ ?_ h
        intro x hx
        rw [hv2]
        exact List.mem_append.mpr (Or.inl (hsub x hx))

/-- Termination bound: fuel exceeding the number of unvisited tree entries
is never exhausted. -/
theorem resolveIncludes_ne_outOfFuel (fs : FS) :
    ∀ fuel r v, newCount fs v < fuel →
      resolveIncludes fs fuel r v ≠ .error .outOfFuel := by
  intro fuel
  induction fuel with
  | zero => intro r v hlt; exact absurd hlt (Nat.not_lt_zero _)
  | succ fuel ih =>
    intro r v hlt h
    simp only [resolveIncludes, pyAbspath] at h
    split at h
    · cases h
    · rename_i hnmem
      split at h
      · cases h
      · rename_i content hread
        have hmemfs : r ∈ fsPaths fs := fsRead_some_mem fs r content hread
        have hdec : newCount fs (v ++ [r]) < newCount fs v :=
          newCount_lt fs v r hmemfs hnmem
        refine resolveList_ne_outOfFuel fs _ _ (v ++ [r])
          (resolveIncludes_visited_eq fs fuel) ?_ _ _ _ (fun x hx => hx) h
        intro r' w hsubw
        apply ih
        have h1 : newCount fs w ≤ newCount fs (v ++ [r]) := newCount_mono fs _ w hsubw
        omega

/-- The loop's output agrees for two recursive calls that agree on every
visited set extending the loop's entry set. -/
theorem resolveList_congr (fs : FS)
    (rec1 rec2 : String → List String → Except WalkError (List String × List String))
    (base : String) (a0 : List String)
    (hrec1_app : ∀ r v res v', rec1 r v = .ok (res, v') → v' = v ++ res)
    (h12 : ∀ r' w, (∀ x ∈ a0, x ∈ w) → rec1 r' w = rec2 r' w) :
    ∀ incs a1 a2, (∀ x ∈ a0, x ∈ a2) →
      resolveList fs rec1 base incs (a1, a2) = resolveList fs rec2 base incs (a1, a2) := by
  intro incs
  induction incs with
  | nil => intro a1 a2 hsub; rfl
  | cons inc rest ih =>
    intro a1 a2 hsub
    simp only [resolveList]
    split
    · exact ih _ _ hsub
    · rename_i found hfound
      rw [← h12 found a2 hsub]
      cases hr : rec1 found a2 with
      | error e => rfl
      | ok pr =>
        obtain ⟨sub, visited2⟩ := pr
        have hv2 : visited2 = a2 ++ sub := hrec1_app _ _ _ _ hr
        refine ih _ _ ?_
        intro x hx
        rw [hv2]
        exact List.mem_append.mpr (Or.inl (hsub x hx))

/-- Fuel independence: any two fuels exceeding the number of unvisited
tree entries produce the same outcome. -/
theorem resolveIncludes_fuel_congr (fs : FS) :
    ∀ f1 f2 r v, newCount fs v < f1 → newCount fs v < f2 →
      resolveIncludes fs f1 r v = resolveIncludes fs f2 r v := by
  intro f1
  induction f1 with
  | zero => intro f2 r v h1; exact absurd h1 (Nat.not_lt_zero _)
  | succ f1 ih =>
    intro f2 r v h1 h2
    cases f2 with
    | zero => exact absurd h2 (Nat.not_lt_zero _)
    | succ f2 =>
      simp only [resolveIncludes, pyAbspath]
      by_cases hmem : r ∈ v
      · simp only [hmem, if_true]
      · simp only [hmem, if_false]
        cases hread : fsRead fs r with
        | none => rfl
        | some content =>
          have hmemfs : r ∈ fsPaths fs := fsRead_some_mem fs r content hread
          have hdec : newCount fs (v ++ [r]) < newCount fs v :=
            newCount_lt fs v r hmemfs hmem
          refine resolveList_congr fs _ _ _ (v ++ [r])
            (resolveIncludes_visited_eq fs f1) ?_ _ _ _ (fun x hx => hx)
          intro r' w hsubw
          have hle : newCount fs w ≤ newCount fs (v ++ [r]) := newCount_mono fs _ w hsubw
          apply ih
          · omega
          · omega

/-- Folding list-append over a list from an accumulator is the accumulator
followed by the flat map. -/
theorem foldl_append_eq_flatMap {α β : Type} (f : α → List β) :
    ∀ (L : List α) (acc : List β),
      L.foldl (fun acc l => acc ++ f l) acc = acc ++ L.flatMap f := by
  intro L
  induction L with
  | nil => intro acc; simp
  | cons a L ih =>
    intro acc
    simp only [List.foldl_cons, ih, List.flatMap_cons, List.append_assoc]

/-- `parse_includes` is the in-order concatenation of the per-line
extractions: line order is preserved and nothing is deduplicated. -/
theorem parse_includes_eq_flatMap (s : String) :
    parse_includes s = (splitlines s).flatMap lineIncludes := by
  unfold parse_includes
  rw [foldl_append_eq_flatMap]
  simp

/-- `dropWhile` over an append whose junction element falsifies the
predicate stops no later than that element. -/
theorem dropWhile_append_blocked {α : Type} (p : α → Bool) (c : α)
    (hc : p c = false) :
    ∀ (l1 l2 : List α), (l1 ++ c :: l2).dropWhile p = l1.dropWhile p ++ c :: l2 := by
  intro l1 l2
  induction l1 with
  | nil => simp [List.dropWhile_cons, hc]
  | cons a l1 ih =>
    by_cases ha : p a = true
    · simp [List.dropWhile_cons, ha, ih]
    · simp only [Bool.not_eq_true] at ha
      simp [List.dropWhile_cons, ha]

/-- `takeWhile` over an append whose junction element falsifies the
predicate never reaches past the first part. -/
theorem takeWhile_append_blocked {α : Type} (p : α → Bool) (c : α)
    (hc : p c = false) :
    ∀ (l1 l2 : List α), (l1 ++ c :: l2).takeWhile p = l1.takeWhile p := by
  intro l1 l2
  induction l1 with
  | nil => simp [List.takeWhile_cons, hc]
  | cons a l1 ih =>
    by_cases ha : p a = true
    · simp [List.takeWhile_cons, ha, ih]
    · simp only [Bool.not_eq_true] at ha
      simp [List.takeWhile_cons, ha]

/-- The stripped-and-truncated line that `parse_includes` scans never
depends on what follows the first comment marker. -/
theorem cleanLine_comment (s t : List Char) :
    truncComment (pyStrip (s ++ '%' :: t)) =
      (s.dropWhile isPySpace).takeWhile (fun c => c ≠ '%') := by
  unfold pyStrip truncComment
  have hpct : isPySpace '%' = false := by decide
  have hne : (fun c => decide (c ≠ '%')) '%' = false := by decide
  rw [dropWhile_append_blocked isPySpace '%' hpct s t]
  rw [show (s.dropWhile isPySpace ++ '%' :: t).reverse
        = t.reverse ++ '%' :: (s.dropWhile isPySpace).reverse by
    simp [List.reverse_append]]
  rw [dropWhile_append_blocked isPySpace '%' hpct t.reverse _]
  rw [show (t.reverse.dropWhile isPySpace ++ '%' :: (s.dropWhile isPySpace).reverse).reverse
        = s.dropWhile isPySpace ++ '%' :: (t.reverse.dropWhile isPySpace).reverse by
    simp [List.reverse_append]]
  rw [takeWhile_append_blocked _ '%' hne]

/-- The characters of a brace capture and of its leftover text all come
from the examined text. -/
theorem braceCapture_subset (r cap rest2 : List Char)
    (h : braceCapture r = some (cap, rest2)) :
    (∀ c ∈ cap, c ∈ r) ∧ ∀ c ∈ rest2, c ∈ r := by
  simp only [braceCapture] at h
  split at h
  · rename_i rest heq
    cases h
    constructor
    · intro c hc
      exact List.takeWhile_subset _ hc
    · intro c hc
      have hmem : c ∈ r.drop ((r.takeWhile (fun c => c ≠ '\x7d')).length) := by
        rw [heq]
        exact List.mem_cons_of_mem _ hc
      exact List.mem_of_mem_drop hmem
  · cases h

/-- The characters of a space capture and of its leftover text all come
from the examined text. -/
theorem spaceCapture_subset (r cap rest2 : List Char)
    (h : spaceCapture r = some (cap, rest2)) :
    (∀ c ∈ cap, c ∈ r) ∧ ∀ c ∈ rest2, c ∈ r := by
  simp only [spaceCapture] at h
  split at h
  · cases h
  · split at h
    · cases h
    · cases h
      constructor
      · intro c hc
        exact List.mem_of_mem_drop (List.takeWhile_subset _ hc)
      · intro c hc
        exact List.mem_of_mem_drop (List.mem_of_mem_drop hc)

/-- The characters of a brace-pattern match all come from the scanned
text. -/
theorem matchBraceArg_subset (l cap rest2 : List Char)
    (h : matchBraceArg l = some (cap, rest2)) :
    (∀ c ∈ cap, c ∈ l) ∧ ∀ c ∈ rest2, c ∈ l := by
  unfold matchBraceArg at h
  split at h
  · obtain ⟨h1, h2⟩ := braceCapture_subset _ _ _ h
    exact ⟨fun c hc => List.mem_of_mem_drop (h1 c hc),
      fun c hc => List.mem_of_mem_drop (h2 c hc)⟩
  · split at h
    · obtain ⟨h1, h2⟩ := braceCapture_subset _ _ _ h
      exact ⟨fun c hc => List.mem_of_mem_drop (h1 c hc),
        fun c hc => List.mem_of_mem_drop (h2 c hc)⟩
    · cases h

/-- The characters of a space-pattern match all come from the scanned
text. -/
theorem matchSpaceArg_subset (l cap rest2 : List Char)
    (h : matchSpaceArg l = some (cap, rest2)) :
    (∀ c ∈ cap, c ∈ l) ∧ ∀ c ∈ rest2, c ∈ l := by
  unfold matchSpaceArg at h
  split at h
  · obtain ⟨h1, h2⟩ := spaceCapture_subset _ _ _ h
    exact ⟨fun c hc => List.mem_of_mem_drop (h1 c hc),
      fun c hc => List.mem_of_mem_drop (h2 c hc)⟩
  · split at h
    · obtain ⟨h1, h2⟩ := spaceCapture_subset _ _ _ h
      exact ⟨fun c hc => List.mem_of_mem_drop (h1 c hc),
        fun c hc => List.mem_of_mem_drop (h2 c hc)⟩
    · cases h

/-- Characters of bracket-scan captures come from the scanned line. -/
theorem findallBracketsAux_subset :
    ∀ fuel l cap, cap ∈ findallBracketsAux fuel l → ∀ c ∈ cap, c ∈ l := by
  intro fuel
  induction fuel with
  | zero =>
    intro l cap h
    simp only [findallBracketsAux] at h
    cases h
  | succ fuel ih =>
    intro l cap h c hc
    cases l with
    | nil => simp only [findallBracketsAux] at h; cases h
    | cons a rest =>
      simp only [findallBracketsAux] at h
      by_cases ha : a = '\\'
      · simp only [ha, if_true] at h
        split at h
        · rename_i cap2 rest2 hm
          rcases List.mem_cons.mp h with hcap | hcap
          · subst hcap
            exact List.mem_cons_of_mem a ((matchBraceArg_subset rest cap rest2 hm).1 c hc)
          · have hcr : c ∈ rest2 := ih rest2 cap hcap c hc
            exact List.mem_cons_of_mem a ((matchBraceArg_subset rest cap2 rest2 hm).2 c hcr)
        · exact List.mem_cons_of_mem a (ih rest cap h c hc)
      · simp only [ha, if_false] at h
        exact List.mem_cons_of_mem a (ih rest cap h c hc)

/-- Characters of space-scan captures come from the scanned line. -/
theorem findallSpaceAux_subset :
    ∀ fuel l cap, cap ∈ findallSpaceAux fuel l → ∀ c ∈ cap, c ∈ l := by
  intro fuel
  induction fuel with
  | zero =>
    intro l cap h
    simp only [findallSpaceAux] at h
    cases h
  | succ fuel ih =>
    intro l cap h c hc
    cases l with
    | nil => simp only [findallSpaceAux] at h; cases h
    | cons a rest =>
      simp only [findallSpaceAux] at h
      by_cases ha : a = '\\'
      · simp only [ha, if_true] at h
        split at h
        · rename_i cap2 rest2 hm
          rcases List.mem_cons.mp h with hcap | hcap
          · subst hcap
            exact List.mem_cons_of_mem a ((matchSpaceArg_subset rest cap rest2 hm).1 c hc)
          · have hcr : c ∈ rest2 := ih rest2 cap hcap c hc
            exact List.mem_cons_of_mem a ((matchSpaceArg_subset rest cap2 rest2 hm).2 c hcr)
        · exact List.mem_cons_of_mem a (ih rest cap h c hc)
      · simp only [ha, if_false] at h
        exact List.mem_cons_of_mem a (ih rest cap h c hc)

/-- No per-line extracted reference contains the comment marker. -/
theorem lineIncludes_no_comment_char (line : List Char) :
    ∀ r ∈ lineIncludes line, '%' ∉ r.data := by
  intro r hr hmem
  simp only [lineIncludes] at hr
  have hclean : ∀ cap, cap ∈ findallBrackets (truncComment (pyStrip line))
      ∨ cap ∈ findallSpace (truncComment (pyStrip line)) → '%' ∈ cap → False := by
    intro cap hcap hpc
    have hin : '%' ∈ truncComment (pyStrip line) := by
      rcases hcap with hcap | hcap
      · exact findallBracketsAux_subset _ _ cap hcap '%' hpc
      · exact findallSpaceAux_subset _ _ cap hcap '%' hpc
    have := List.mem_takeWhile_imp hin
    simp at this
  rcases List.mem_append.mp hr with hr' | hr' <;>
    obtain ⟨cap, hcap, hmk⟩ := List.mem_map.mp hr'
  · exact hclean cap (Or.inl hcap) (by rw [← hmk] at hmem; exact hmem)
  · exact hclean cap (Or.inr hcap) (by rw [← hmk] at hmem; exact hmem)

/-- Folding string-append from an accumulator splits off the accumulator. -/
theorem string_foldl_shift :
    ∀ (l : List String) (acc : String),
      l.foldl (fun r s => r ++ s) acc = acc ++ l.foldl (fun r s => r ++ s) "" := by
  intro l
  induction l with
  | nil => intro acc; rw [List.foldl_nil, List.foldl_nil, String.append_empty]
  | cons s l ih =>
    intro acc
    rw [List.foldl_cons, List.foldl_cons, ih (acc ++ s), ih ("" ++ s)]
    rw [String.empty_append, String.append_assoc]

/-- `String.join` peels its first element. -/
theorem stringJoin_cons (s : String) (l : List String) :
    String.join (s :: l) = s ++ String.join l := by
  show (s :: l).foldl (fun r t => r ++ t) "" = s ++ String.join l
  rw [List.foldl_cons, string_foldl_shift l ("" ++ s), String.empty_append]
  rfl

/-- The emission loop over readable paths produces exactly the
concatenation of the per-file marker blocks, in list order. -/
theorem emitLoop_eq (fs : FS) :
    ∀ (paths : List String) (acc : String),
      (∀ p ∈ paths, isFile fs p = true) →
      emitLoop fs paths acc = some (acc ++ String.join (paths.map (emitBlock fs))) := by
  intro paths
  induction paths with
  | nil =>
    intro acc h
    simp only [emitLoop, List.map_nil]
    rw [show String.join [] = "" from rfl, String.append_empty]
  | cons p rest ih =>
    intro acc h
    obtain ⟨c, hc⟩ := isFile_fsRead fs p (h p (List.mem_cons_self p rest))
    simp only [emitLoop, hc]
    rw [ih _ (fun q hq => h q (List.mem_cons_of_mem p hq))]
    rw [List.map_cons, stringJoin_cons]
    rw [show emitBlock fs p
          = ("% >>>>>>>> BEGIN " ++ p ++ "\n") ++ c ++ ("\n% <<<<<<<< END " ++ p ++ "\n\n") by
      unfold emitBlock
      rw [hc]
      simp [String.append_assoc]]
    simp [String.append_assoc]

/-- A successful walk started on an empty visited set lists its root
first. -/
theorem resolveIncludes_top_shape (fs : FS) (fuel : Nat) (r : String)
    (res v' : List String) (h : resolveIncludes fs fuel r [] = .ok (res, v')) :
    ∃ ext, res = r :: ext := by
  cases fuel with
  | zero => cases h
  | succ fuel =>
    simp only [resolveIncludes, pyAbspath] at h
    split at h
    · rename_i hmem
      cases hmem
    · split at h
      · cases h
      · obtain ⟨ext, hres, -⟩ :=
          resolveList_ok_append fs _ (resolveIncludes_visited_eq fs fuel) _ _ _ _ _ _ h
        exact ⟨ext, by simpa using hres⟩

/-- C1: a successful top-level walk lists the root first, lists each
reachable, resolvable file exactly once (it is sound and complete for
include-graph reachability and has no duplicates), and is in pre-order of
first visitation: a node reachable only through `p` never appears before
`p`; in particular, on the cyclic `main.tex → a.tex → b.tex → a.tex`
tree the result is exactly `[main.tex, a.tex, b.tex]`. -/
theorem claim_C1_walker_order (fs : FS) (fuel : Nat) (root : String)
    (res : List String)
    (h : resolve_includes fs fuel root = Except.ok res) :
    res.head? = some root
    ∧ res.Nodup
    ∧ (∀ q ∈ res, Reachable fs root q)
    ∧ (∀ q, Reachable fs root q → q ∈ res)
    ∧ (∀ p q, p ∈ res → q ∈ res → OnlyThrough fs root p q →
        res.indexOf p ≤ res.indexOf q)
    ∧ resolve_includes cycleFS 4 "/d/main.tex"
        = Except.ok ["/d/main.tex", "/d/a.tex", "/d/b.tex"] := by
  unfold resolve_includes at h
  cases hmain : resolveIncludes fs fuel root [] with
  | error e => rw [hmain] at h; cases h
  | ok pr =>
    obtain ⟨res', v'⟩ := pr
    rw [hmain] at h
    simp only [Except.map] at h
    cases h
    have hgood := resolveIncludes_good fs fuel root [] res v' hmain
    have hfresh := resolveIncludes_fresh fs fuel root [] res v' hmain
    have hv : v' = res := by
      have := resolveIncludes_visited_eq fs fuel root [] res v' hmain
      simpa using this
    obtain ⟨ext, hshape⟩ := resolveIncludes_top_shape fs fuel root res v' hmain
    refine ⟨?_, hfresh.1, ?_, ?_, ?_, by rfl⟩
    · rw [hshape]; rfl
    · exact goodList_reachable fs root res hgood
    · rintro q ⟨l, hl⟩
      have hclosure := resolveIncludes_closure fs fuel root [] res v' hmain
      have hrootmem : root ∈ res := by
        rw [hshape]; exact List.mem_cons_self _ _
      induction hl with
      | refl => exact hrootmem
      | step p q' l' hp hsucc ih => exact hv ▸ hclosure p ih q' hsucc
    · intro p q hp hq honly
      exact goodList_indexOf fs root res hgood hfresh.1 p q hp hq honly

theorem claim_C1_walker_order_witness :
    resolve_includes cycleFS 4 "/d/main.tex"
      = Except.ok ["/d/main.tex", "/d/a.tex", "/d/b.tex"]
    ∧ (["/d/main.tex", "/d/a.tex", "/d/b.tex"] : List String).head?
        = some "/d/main.tex"
    ∧ (["/d/main.tex", "/d/a.tex", "/d/b.tex"] : List String).Nodup :=
  ⟨rfl,
   (claim_C1_walker_order cycleFS 4 "/d/main.tex"
     ["/d/main.tex", "/d/a.tex", "/d/b.tex"] rfl).1,
   (claim_C1_walker_order cycleFS 4 "/d/main.tex"
     ["/d/main.tex", "/d/a.tex", "/d/b.tex"] rfl).2.1⟩

/-- C2: with fuel exceeding the number of tree entries the walker never
exhausts it — the recursion depth is bounded because a path is added to the
visited set before its references are expanded — and a self-including file
resolves to a single-entry list. -/
theorem claim_C2_termination (fs : FS) (fuel : Nat) (root : String)
    (h : fs.length + 1 ≤ fuel) :
    resolve_includes fs fuel root ≠ Except.error WalkError.outOfFuel
    ∧ resolve_includes selfFS 2 "/s/self.tex" = Except.ok ["/s/self.tex"] := by
  refine ⟨?_, rfl⟩
  intro hbad
  unfold resolve_includes at hbad
  cases hx : resolveIncludes fs fuel root [] with
  | error e =>
    rw [hx] at hbad
    simp only [Except.map] at hbad
    cases hbad
    exact resolveIncludes_ne_outOfFuel fs fuel root []
      (by have := newCount_le fs []; omega) hx
  | ok pr =>
    rw [hx] at hbad
    simp only [Except.map] at hbad
    cases hbad

theorem claim_C2_termination_witness :
    selfFS.length + 1 ≤ 2
    ∧ resolve_includes selfFS 2 "/s/self.tex" ≠ Except.error WalkError.outOfFuel :=
  ⟨by decide, (claim_C2_termination selfFS 2 "/s/self.tex" (by decide)).1⟩

/-- C3: whenever some enumerated candidate's base name is exactly the
conventional entry name plus extension (case-insensitively), the root
selector returns the first such file, whatever the other candidates and any
file contents are. -/
theorem claim_C3_main_name (fs : FS) (f : String × String)
    (h : (texCandidates fs).find? isMainName = some f) :
    find_main_texfile fs = some f.1 := by
  simp only [find_main_texfile, h]

theorem claim_C3_main_name_witness :
    (texCandidates mainFS).find? isMainName = some ("/w/sub/MAIN.TEX", "y")
    ∧ find_main_texfile mainFS = some "/w/sub/MAIN.TEX" :=
  ⟨by rfl, claim_C3_main_name mainFS ("/w/sub/MAIN.TEX", "y") (by rfl)⟩

/-- C4: a reference already carrying the canonical extension
(case-insensitively) gets a single verbatim candidate; otherwise the
extension-appended candidate is tried before the verbatim one; the first
existing file wins, and an unresolved reference is skipped silently by the
walker's include loop. -/
theorem claim_C4_resolver (fs : FS) (base_dir inc : String) :
    (['.','t','e','x'].isSuffixOf (lowerChars inc.data) = true →
      resolve_reference fs base_dir inc =
        (if isFile fs (joinPath base_dir inc) = true then some (joinPath base_dir inc)
         else none))
    ∧ (['.','t','e','x'].isSuffixOf (lowerChars inc.data) = false →
      resolve_reference fs base_dir inc =
        (if isFile fs (joinPath base_dir (inc ++ ".tex")) = true
         then some (joinPath base_dir (inc ++ ".tex"))
         else if isFile fs (joinPath base_dir inc) = true
         then some (joinPath base_dir inc)
         else none))
    ∧ (resolve_reference fs base_dir inc = none →
      ∀ rec rest acc,
        resolveList fs rec base_dir (inc :: rest) acc
          = resolveList fs rec base_dir rest acc) := by
  refine ⟨?_, ?_, ?_⟩
  · intro hsuf
    simp only [resolve_reference, hsuf, if_true, List.find?]
    cases hf : isFile fs (joinPath base_dir inc) <;> simp [hf]
  · intro hsuf
    simp only [resolve_reference, hsuf, Bool.false_eq_true, if_false, List.find?]
    cases hf1 : isFile fs (joinPath base_dir (inc ++ ".tex")) <;>
      cases hf2 : isFile fs (joinPath base_dir inc) <;> simp [hf1, hf2]
  · intro hnone rec rest acc
    simp only [resolveList, hnone]

theorem claim_C4_resolver_witness :
    (['.','t','e','x'].isSuffixOf (lowerChars ("sec" : String).data) = false
      ∧ resolve_reference secFS "/r" "sec" = some "/r/sec.tex")
    ∧ (['.','t','e','x'].isSuffixOf (lowerChars ("sec.tex" : String).data) = true
      ∧ resolve_reference secFS "/r" "sec.tex" = some "/r/sec.tex") :=
  ⟨⟨by decide, by
      rw [(claim_C4_resolver secFS "/r" "sec").2.1 (by decide)]
      decide⟩,
   ⟨by decide, by
      rw [(claim_C4_resolver secFS "/r" "sec.tex").1 (by decide)]
      decide⟩⟩

/-- C5: within a line, everything from the first comment marker on is
irrelevant to extraction — the line is truncated there before either
pattern is applied; in particular the documented example extracts only the
reference before the marker. -/
theorem claim_C5_comment_truncation :
    (∀ s t : List Char, lineIncludes (s ++ '%' :: t) = lineIncludes (s ++ ['%']))
    ∧ parse_includes "\\input\x7ba\x7d % \\input\x7bb\x7d" = ["a"] := by
  constructor
  · intro s t
    simp only [lineIncludes]
    rw [cleanLine_comment s t, cleanLine_comment s []]
  · decide

/-- C6: with no conventionally named candidate, the selector returns the
first candidate containing the document-start marker, else the first
candidate at all, and signals not-found exactly when there is no
candidate. -/
theorem claim_C6_fallback_tiers (fs : FS)
    (hnomain : (texCandidates fs).find? isMainName = none) :
    (∀ f, (texCandidates fs).find? hasBeginDocument = some f →
      find_main_texfile fs = some f.1)
    ∧ ((texCandidates fs).find? hasBeginDocument = none →
      ∀ f rest, texCandidates fs = f :: rest → find_main_texfile fs = some f.1)
    ∧ (texCandidates fs = [] → find_main_texfile fs = none) := by
  refine ⟨?_, ?_, ?_⟩
  · intro f hf
    simp only [find_main_texfile, hnomain, hf]
  · intro hnone f rest hcand
    rw [hcand] at hnomain hnone
    simp only [find_main_texfile, hcand, hnomain, hnone]
  · intro hempty
    simp only [find_main_texfile, hempty, List.find?]

theorem claim_C6_fallback_tiers_witness :
    (texCandidates markerFS).find? isMainName = none
    ∧ find_main_texfile markerFS = some "/w/b.tex"
    ∧ find_main_texfile ([] : FS) = none :=
  ⟨by rfl,
   (claim_C6_fallback_tiers markerFS (by rfl)).1
     ("/w/b.tex", "x \x5cbegin\x7bdocument\x7d y") (by rfl),
   (claim_C6_fallback_tiers ([] : FS) (by rfl)).2.2 (by rfl)⟩

/-- C7: the parser's output concatenates the per-line extractions in line
order with no deduplication, and within a line all bracketed captures come
before all space-separated captures; duplicates across lines survive, and
a space-separated reference is listed after a bracketed one even when it
occurs earlier in the line. -/
theorem claim_C7_parser_order (s : String) :
    parse_includes s = (splitlines s).flatMap lineIncludes
    ∧ (∀ line : List Char,
        lineIncludes line
          = (findallBrackets (truncComment (pyStrip line))).map (fun l => String.mk l)
            ++ (findallSpace (truncComment (pyStrip line))).map (fun l => String.mk l))
    ∧ parse_includes "\\input\x7ba\x7d\n\\input\x7ba\x7d" = ["a", "a"]
    ∧ parse_includes "\\input b \\include\x7ba\x7d" = ["a", "b"] :=
  ⟨parse_includes_eq_flatMap s, fun line => rfl, by decide, by decide⟩

/-- C8: over readable paths the emitter produces exactly the blocks
`% >>>>>>>> BEGIN <path>`, content, `% <<<<<<<< END <path>` and a blank
line, concatenated in list order; shown both in general and literally on
the three-file example. -/
theorem claim_C8_emitter (fs : FS) (paths : List String)
    (h : ∀ p ∈ paths, isFile fs p = true) :
    emitConcatenation fs paths = some (String.join (paths.map (emitBlock fs)))
    ∧ emitConcatenation cycleFS ["/d/main.tex", "/d/a.tex", "/d/b.tex"]
        = some ("% >>>>>>>> BEGIN /d/main.tex\n\\input\x7ba\x7d\n% <<<<<<<< END /d/main.tex\n\n"
          ++ "% >>>>>>>> BEGIN /d/a.tex\n\\input\x7bb\x7d\n% <<<<<<<< END /d/a.tex\n\n"
          ++ "% >>>>>>>> BEGIN /d/b.tex\n\\input\x7ba\x7d\n% <<<<<<<< END /d/b.tex\n\n") := by
  constructor
  · unfold emitConcatenation
    rw [emitLoop_eq fs paths "" h, String.empty_append]
  · rfl

theorem claim_C8_emitter_witness :
    (∀ p ∈ (["/d/main.tex"] : List String), isFile cycleFS p = true)
    ∧ emitConcatenation cycleFS ["/d/main.tex"]
        = some (String.join ((["/d/main.tex"] : List String).map (emitBlock cycleFS))) :=
  ⟨by decide, (claim_C8_emitter cycleFS ["/d/main.tex"] (by decide)).1⟩

/-- C9: with sufficient fuel, resolution is a pure function of the tree:
two runs (even with different fuel) give the same ordered list and the same
emitted bytes, the visited set being created afresh inside each top-level
call. -/
theorem claim_C9_idempotent (fs : FS) (root : String) (f1 f2 : Nat)
    (h1 : fs.length + 1 ≤ f1) (h2 : fs.length + 1 ≤ f2) :
    resolve_includes fs f1 root = resolve_includes fs f2 root
    ∧ (resolve_includes fs f1 root).toOption.map (emitConcatenation fs)
        = (resolve_includes fs f2 root).toOption.map (emitConcatenation fs) := by
  have hlt1 : newCount fs [] < f1 := by have := newCount_le fs []; omega
  have hlt2 : newCount fs [] < f2 := by have := newCount_le fs []; omega
  have heq : resolveIncludes fs f1 root [] = resolveIncludes fs f2 root [] :=
    resolveIncludes_fuel_congr fs f1 f2 root [] hlt1 hlt2
  unfold resolve_includes
  rw [heq]
  exact ⟨rfl, rfl⟩

theorem claim_C9_idempotent_witness :
    cycleFS.length + 1 ≤ 4 ∧ cycleFS.length + 1 ≤ 5
    ∧ resolve_includes cycleFS 4 "/d/main.tex" = resolve_includes cycleFS 5 "/d/main.tex" :=
  ⟨by decide, by decide,
   (claim_C9_idempotent cycleFS "/d/main.tex" 4 5 (by decide) (by decide)).1⟩

/-- C10: no reference string the parser returns contains the comment
marker, since each line is truncated at its first marker before the
extraction patterns run. -/
theorem claim_C10_no_comment_char (text : String) :
    ∀ r ∈ parse_includes text, '%' ∉ r.data := by
  intro r hr
  rw [parse_includes_eq_flatMap] at hr
  obtain ⟨line, -, hr'⟩ := List.exists_of_mem_flatMap hr
  exact lineIncludes_no_comment_char line r hr'

theorem claim_C10_no_comment_char_witness :
    ("ab" ∈ parse_includes "\\input\x7bab\x7d") ∧ '%' ∉ ("ab" : String).data :=
  ⟨by decide, claim_C10_no_comment_char "\\input\x7bab\x7d" "ab" (by decide)⟩
